import Mathlib

/-!
Verification of the `time-to-eat` conversion tools.

This file shallowly embeds the two scripts of the repository:

* `src/bin/lib/gen-rooms.py` — the image → bitsydata conversion pipeline
  (identifier allocator, image slicer, tile and room serialization, and the
  driver's grouping of room images), and
* `src/bin/lib/add-walls.py` — the wall-annotation pass over a bitsydata file.

Python integers are modelled as `Nat` (the counters in the program are
non-negative; the raw `int` loop of `Id.encode` is additionally modelled over
`Int` with explicit fuel where its behaviour on negatives matters), Python
strings as `String`, Python lists as `List`, and fallible code as `Option`.
-/

/-! ## Identifier allocator (`gen-rooms.py`, class `Id`) -/

/-- `ALPHABET = "0123456789abcdefghijklmnopqrstuvwxyz"` (gen-rooms.py line 11). -/
def ALPHABET : String := "0123456789abcdefghijklmnopqrstuvwxyz"

/-- `ALPHABET[j]`: indexing into the alphabet.  The program only indexes with
`j = i % 36 < 36`, so the out-of-range default is never hit. -/
def alphaChar (j : Nat) : Char := ALPHABET.toList.getD j ' '

/-- The `while i != 0` loop of `Id.encode` (gen-rooms.py lines 52-55), for the
non-negative counter values the program produces.  Each iteration performs
`i, j = divmod(i, 36)` and prepends `ALPHABET[j]`. -/
def encodeGo (i : Nat) (str : String) : String :=
  if h : i = 0 then str
  else encodeGo (i / 36) (String.singleton (alphaChar (i % 36)) ++ str)
termination_by i
decreasing_by exact Nat.div_lt_self (Nat.pos_of_ne_zero h) (by norm_num)

/-- `Id.encode` (gen-rooms.py lines 49-57): run the digit loop, then
`return str or "0"` (the empty string is falsy in Python). -/
def idEncode (val : Nat) : String :=
  let s := encodeGo val ""
  if s = "" then "0" else s

/-- Modelled from the spec: `decode`, the base-36 reading of a digit string
(most-significant digit first, alphabet `0-9a-z`); the decoder is not present
in the source, only its contract in the spec's testable properties. -/
def digitVal (c : Char) : Nat := ALPHABET.toList.indexOf c

/-- Modelled from the spec: base-36 decoding of an identifier string. -/
def decode36 (s : String) : Nat :=
  s.toList.foldl (fun acc c => acc * 36 + digitVal c) 0

/-- The raw `while` loop of `Id.encode` over Python ints (arbitrary sign),
with explicit fuel: `none` means the loop was still running when the fuel ran
out.  `divmod` in Python is floored division, i.e. `Int.fdiv` / `Int.fmod`. -/
def idEncodeIntGo : Nat → Int → String → Option String
  | fuel, i, str =>
    if i = 0 then some str
    else
      match fuel with
      | 0 => none
      | f + 1 =>
          idEncodeIntGo f (Int.fdiv i 36)
            (String.singleton (alphaChar (Int.fmod i 36).toNat) ++ str)

/-- `Id.encode` over Python ints with fuel, including the final
`return str or "0"`. -/
def idEncodeInt (fuel : Nat) (v : Int) : Option String :=
  (idEncodeIntGo fuel v "").map (fun s => if s = "" then "0" else s)

/-! ### Lemmas about the base-36 encoding -/

theorem encodeGo_append (i : Nat) : ∀ str, encodeGo i str = encodeGo i "" ++ str := by
  induction i using Nat.strong_induction_on with
  | _ i ih =>
    intro str
    by_cases h : i = 0
    · subst h
      conv_lhs => rw [encodeGo]
      conv_rhs => rw [encodeGo]
      simp
    · have hlt : i / 36 < i := Nat.div_lt_self (Nat.pos_of_ne_zero h) (by norm_num)
      conv_lhs => rw [encodeGo]
      conv_rhs => rw [encodeGo]
      rw [dif_neg h, dif_neg h]
      rw [ih (i / 36) hlt (String.singleton (alphaChar (i % 36)) ++ str),
        ih (i / 36) hlt (String.singleton (alphaChar (i % 36)) ++ "")]
      simp [← String.append_assoc]

theorem decodeFold (l : List Char) :
    ∀ acc : Nat, l.foldl (fun a c => a * 36 + digitVal c) acc
      = acc * 36 ^ l.length + l.foldl (fun a c => a * 36 + digitVal c) 0 := by
  induction l with
  | nil => simp
  | cons c t ih =>
    intro acc
    simp only [List.foldl_cons, List.length_cons]
    rw [ih (acc * 36 + digitVal c), ih (0 * 36 + digitVal c)]
    ring

theorem decode36_append (a b : String) :
    decode36 (a ++ b) = decode36 a * 36 ^ b.toList.length + decode36 b := by
  simp only [decode36, String.toList, String.data_append, List.foldl_append]
  rw [decodeFold b.data]

theorem digitVal_alphaChar : ∀ j, j < 36 → digitVal (alphaChar j) = j := by decide

theorem alphaChar_ne_zero : ∀ j, j < 36 → 0 < j → alphaChar j ≠ '0' := by decide

theorem decode36_encodeGo (n : Nat) : decode36 (encodeGo n "") = n := by
  induction n using Nat.strong_induction_on with
  | _ n ih =>
    by_cases h : n = 0
    · subst h
      rw [encodeGo]
      simp [decode36]
    · have hlt : n / 36 < n := Nat.div_lt_self (Nat.pos_of_ne_zero h) (by norm_num)
      rw [encodeGo, dif_neg h, encodeGo_append]
      simp only [String.append_empty]
      rw [decode36_append]
      have h1 : (String.singleton (alphaChar (n % 36))).toList = [alphaChar (n % 36)] := rfl
      have h2 : decode36 (String.singleton (alphaChar (n % 36))) = digitVal (alphaChar (n % 36)) := by
        simp [decode36, h1]
      rw [h1, h2, digitVal_alphaChar (n % 36) (Nat.mod_lt _ (by norm_num)), ih (n / 36) hlt]
      simp only [List.length_cons, List.length_nil, pow_one]
      omega

theorem encodeGo_head (n : Nat) (hn : n ≠ 0) :
    ∃ c cs, (encodeGo n "").toList = c :: cs ∧ c ≠ '0' := by
  induction n using Nat.strong_induction_on with
  | _ n ih =>
    have hlt : n / 36 < n := Nat.div_lt_self (Nat.pos_of_ne_zero hn) (by norm_num)
    rw [encodeGo, dif_neg hn]
    by_cases hq : n / 36 = 0
    · have hsmall : n < 36 := by
        by_contra hge
        push_neg at hge
        have h1 : 1 ≤ n / 36 := (Nat.le_div_iff_mul_le (by norm_num)).mpr (by omega)
        omega
      have hmod : n % 36 = n := Nat.mod_eq_of_lt hsmall
      rw [hq, encodeGo]
      refine ⟨alphaChar (n % 36), [], ?_, ?_⟩
      · simp
      · rw [hmod]
        exact alphaChar_ne_zero n hsmall (Nat.pos_of_ne_zero hn)
    · obtain ⟨c, cs, hcs, hc⟩ := ih (n / 36) hlt hq
      rw [encodeGo_append]
      refine ⟨c, cs ++ (String.singleton (alphaChar (n % 36)) ++ "").toList, ?_, hc⟩
      have : (encodeGo (n / 36) "" ++ (String.singleton (alphaChar (n % 36)) ++ "")).toList
          = (encodeGo (n / 36) "").toList ++ (String.singleton (alphaChar (n % 36)) ++ "").toList := by
        simp [String.toList, String.data_append]
      rw [this, hcs]
      simp

theorem idEncode_of_ne_zero (n : Nat) (hn : n ≠ 0) : idEncode n = encodeGo n "" := by
  obtain ⟨c, cs, hcs, _⟩ := encodeGo_head n hn
  rw [idEncode]
  have hne : encodeGo n "" ≠ "" := by
    intro h
    rw [h] at hcs
    simp [String.toList] at hcs
  simp [hne]

/-- C6: The base-36 identifier encoding is a left inverse of decoding on
non-negative integers: for every non-negative integer `n`, decoding
`Id(n).encode()` with alphabet `0-9a-z` yields `n`; `Id(0).encode() = "0"`;
and for every `n > 0` the encoding has no leading `'0'` character. -/
theorem c6_base36_roundtrip (n : Nat) :
    decode36 (idEncode n) = n ∧ idEncode 0 = "0" ∧
      (0 < n → (idEncode n).toList.head? ≠ some '0') := by
  have h0 : idEncode 0 = "0" := by
    rw [idEncode]
    conv_lhs => rw [encodeGo]
    simp
  refine ⟨?_, h0, ?_⟩
  · by_cases hn : n = 0
    · subst hn
      rw [h0]
      decide
    · rw [idEncode_of_ne_zero n hn]
      exact decode36_encodeGo n
  · intro hpos
    have hn : n ≠ 0 := Nat.pos_iff_ne_zero.mp hpos
    obtain ⟨c, cs, hcs, hc⟩ := encodeGo_head n hn
    rw [idEncode_of_ne_zero n hn, hcs]
    simp
    exact hc

/-- Witness for C6 at `n = 36` (encoding `"10"`). -/
theorem c6_base36_roundtrip_witness :
    decode36 (idEncode 36) = 36 ∧ idEncode 0 = "0" ∧
      (idEncode 36).toList.head? ≠ some '0' := by
  have h := c6_base36_roundtrip 36
  exact ⟨h.1, h.2.1, h.2.2 (by norm_num)⟩

/-! ### The `Id.encode` loop on negative ints never terminates -/

theorem idEncodeIntGo_neg_one : ∀ fuel str, idEncodeIntGo fuel (-1) str = none := by
  intro fuel
  induction fuel with
  | zero =>
    intro str
    rw [idEncodeIntGo]
    norm_num
  | succ f ih =>
    intro str
    rw [idEncodeIntGo]
    have hd : Int.fdiv (-1) 36 = -1 := by decide
    norm_num [hd]
    exact ih _

theorem idEncodeIntGo_nonneg :
    ∀ fuel (n : Nat) (str : String), n < fuel →
      idEncodeIntGo fuel (n : Int) str = some (encodeGo n str) := by
  intro fuel
  induction fuel with
  | zero => intro n str h; omega
  | succ f ih =>
    intro n str hlt
    rw [idEncodeIntGo]
    by_cases hn : n = 0
    · subst hn
      conv_rhs => rw [encodeGo]
      simp
    · have hne : (n : Int) ≠ 0 := by exact_mod_cast hn
      rw [if_neg hne]
      have hd : Int.fdiv (n : Int) 36 = ((n / 36 : Nat) : Int) := by
        rw [Int.fdiv_eq_ediv _ (by norm_num)]
        omega
      have hm : (Int.fmod (n : Int) 36).toNat = n % 36 := by
        rw [Int.fmod_eq_emod _ (by norm_num)]
        omega
      rw [hd, hm]
      have hq : n / 36 < f := by
        have := Nat.div_lt_self (Nat.pos_of_ne_zero hn) (by norm_num : 1 < 36)
        omega
      rw [ih (n / 36) _ hq]
      conv_rhs => rw [encodeGo]
      rw [dif_neg hn]

/-- C7 counterexample: at counter value `-1` the `while` loop of `Id.encode`
never terminates (Python's floored `divmod` keeps the quotient at `-1`), so
no amount of fuel makes the encoding return. -/
theorem c7_total_counterexample :
    ¬ ∃ fuel, (idEncodeInt fuel (-1)).isSome = true := by
  rintro ⟨fuel, h⟩
  rw [idEncodeInt, idEncodeIntGo_neg_one] at h
  simp at h

/-- C7 amended: `Id.encode` terminates for every non-negative counter value
(fuel `n + 1` suffices and yields the base-36 encoding), but for negative
values the loop never terminates — it is not total over all integers and
never produces a `'-'`-prefixed string. -/
theorem c7_encode_termination (n : Nat) (fuel : Nat) :
    idEncodeInt (n + 1) (n : Int) = some (idEncode n) ∧
      idEncodeInt fuel (-1) = none := by
  constructor
  · rw [idEncodeInt, idEncodeIntGo_nonneg (n + 1) n "" (Nat.lt_succ_self n)]
    rw [idEncode]
    rfl
  · rw [idEncodeInt, idEncodeIntGo_neg_one]
    rfl

/-! ## Image slicer (`gen-rooms.py`, `Image.slice`) -/

/-- `Image.slice` (gen-rooms.py lines 81-102).  The image data is the list of
pixel rows; a pixel is "on" iff its palette value equals `2`.  The source walks
absolute coordinates `yi ∈ [y0, y1)`, `xi ∈ [x0, x1)` with a running bit index
`i` that increments once per pixel; this is the same enumeration as offsets
`yi, xi ∈ [0, s)` with `i = yi * s + xi`.  Python raises `IndexError` on an
out-of-bounds sample; the theorems below only sample in bounds, where the
`getD` defaults are never consulted. -/
def Image.slice (data : List (List Nat)) (x y s : Nat) : Nat :=
  let x0 := x * s
  let y0 := y * s
  (List.range s).foldl
    (fun acc yi =>
      (List.range s).foldl
        (fun acc2 xi =>
          if (data.getD (y0 + yi) []).getD (x0 + xi) 0 = 2 then
            acc2 ||| (1 <<< (yi * s + xi))
          else acc2)
        acc)
    0

/-! ## Tile model (`gen-rooms.py`, class `Tile`) -/

/-- A `Tile` (gen-rooms.py lines 229-246): identifier value, display name and
the list of frame bitmasks (the `Id` object is copied by value, so a plain
counter value suffices). -/
structure Tile where
  id : Nat
  name : String
  frames : List Nat
deriving DecidableEq

/-- `Tile.empty` (gen-rooms.py lines 313-319): id 0, name `"empty"`, a single
all-zero frame. -/
def Tile.empty : Tile := ⟨0, "empty", [0]⟩

/-- `Tile.is_empty` (gen-rooms.py lines 250-251): the id value is zero. -/
def Tile.is_empty (t : Tile) : Bool := t.id == 0

/-- The character the frame loop emits for bit `i`: `'1'` iff
`f & (1 << i) != 0`. -/
def bitChar (f i : Nat) : Char := if f.testBit i then '1' else '0'

/-- The character sequence built by the loop of `Tile.encode_frame`
(gen-rooms.py lines 290-309): for each bit index `i` emit `'0'`/`'1'`, and a
newline when `(i+1) % 8 == 0` unless `i+1` is the total `64`.  `i` is the
current index and the second argument counts the remaining iterations. -/
def frameChars (f : Nat) : Nat → Nat → List Char
  | _, 0 => []
  | i, rem + 1 =>
    if (i + 1) % 8 = 0 ∧ i + 1 ≠ 64 then
      bitChar f i :: '\n' :: frameChars f (i + 1) rem
    else
      bitChar f i :: frameChars f (i + 1) rem

/-- `Tile.encode_frame`: the 8×8 bitmap text of one frame mask. -/
def encode_frame (f : Nat) : String := String.mk (frameChars f 0 64)

/-- `Tile.encode` (gen-rooms.py lines 263-287): first frame bitmap, the `>`
separated second bitmap only when a second frame exists and differs, then the
name and `WAL false` lines.  `hdoc` of the template yields
`"TIL {0}\n{1}\nNAME {2}\nWAL false\n"`. -/
def Tile.encode (t : Tile) : String :=
  let fs := t.frames
  let fstr :=
    encode_frame (fs.getD 0 0) ++
      (if fs.length = 2 ∧ fs.getD 0 0 ≠ fs.getD 1 0 then
        "\n>\n" ++ encode_frame (fs.getD 1 0)
      else "")
  "TIL " ++ idEncode t.id ++ "\n" ++ fstr ++ "\nNAME " ++ t.name ++ "\nWAL false\n"

/-! ### Lemmas about frame encoding and slicing -/

theorem frameChars_full (f : Nat) :
    frameChars f 0 64 =
      [bitChar f 0, bitChar f 1, bitChar f 2, bitChar f 3, bitChar f 4, bitChar f 5,
      bitChar f 6, bitChar f 7, '\n', bitChar f 8, bitChar f 9, bitChar f 10,
      bitChar f 11, bitChar f 12, bitChar f 13, bitChar f 14, bitChar f 15, '\n',
      bitChar f 16, bitChar f 17, bitChar f 18, bitChar f 19, bitChar f 20, bitChar f 21,
      bitChar f 22, bitChar f 23, '\n', bitChar f 24, bitChar f 25, bitChar f 26,
      bitChar f 27, bitChar f 28, bitChar f 29, bitChar f 30, bitChar f 31, '\n',
      bitChar f 32, bitChar f 33, bitChar f 34, bitChar f 35, bitChar f 36, bitChar f 37,
      bitChar f 38, bitChar f 39, '\n', bitChar f 40, bitChar f 41, bitChar f 42,
      bitChar f 43, bitChar f 44, bitChar f 45, bitChar f 46, bitChar f 47, '\n',
      bitChar f 48, bitChar f 49, bitChar f 50, bitChar f 51, bitChar f 52, bitChar f 53,
      bitChar f 54, bitChar f 55, '\n', bitChar f 56, bitChar f 57, bitChar f 58,
      bitChar f 59, bitChar f 60, bitChar f 61, bitChar f 62, bitChar f 63] := rfl

theorem encode_frame_get (f : Nat) (row col : Nat) (hr : row < 8) (hc : col < 8) :
    (encode_frame f).toList.get? (row * 9 + col) = some (bitChar f (row * 8 + col)) := by
  have ht : (encode_frame f).toList = frameChars f 0 64 := rfl
  rw [ht, frameChars_full]
  interval_cases row <;> interval_cases col <;> rfl

theorem foldl_or_testBit (l : List Nat) (g : Nat → Nat) (p : Nat → Prop)
    [DecidablePred p] (a j : Nat) :
    ((l.foldl (fun acc i => if p i then acc ||| 1 <<< g i else acc) a).testBit j)
      = (a.testBit j || l.any fun i => decide (p i) && (g i == j)) := by
  induction l generalizing a with
  | nil => simp
  | cons x xs ih =>
    simp only [List.foldl_cons, List.any_cons]
    rw [ih]
    have hstep : ((if p x then a ||| 1 <<< g x else a).testBit j)
        = (a.testBit j || (decide (p x) && (g x == j))) := by
      by_cases hp : p x
      · rw [if_pos hp, decide_eq_true hp, Bool.true_and, Nat.testBit_or]
        congr 1
        rw [Nat.shiftLeft_eq, one_mul, Nat.testBit_two_pow]
        by_cases hgx : g x = j <;> simp [hgx]
      · simp [hp]
    rw [hstep]
    cases a.testBit j <;> simp [Bool.or_assoc]

theorem foldl_or_testBit2 (l : List Nat) (g : Nat → Nat → Nat) (p : Nat → Nat → Prop)
    [∀ a b, Decidable (p a b)] (a j : Nat) :
    ((l.foldl
        (fun acc yi =>
          (List.range 8).foldl
            (fun acc2 xi => if p yi xi then acc2 ||| 1 <<< g yi xi else acc2) acc)
        a).testBit j)
      = (a.testBit j ||
          l.any fun yi =>
            (List.range 8).any fun xi => decide (p yi xi) && (g yi xi == j)) := by
  induction l generalizing a with
  | nil => simp
  | cons yi ys ih =>
    simp only [List.foldl_cons, List.any_cons]
    rw [ih, foldl_or_testBit]
    cases a.testBit j <;> simp [Bool.or_assoc]

theorem slice_testBit (data : List (List Nat)) (x y row col : Nat)
    (hr : row < 8) (hc : col < 8) :
    (Image.slice data x y 8).testBit (row * 8 + col)
      = ((data.getD (y * 8 + row) []).getD (x * 8 + col) 0 == 2) := by
  rw [Image.slice]
  rw [foldl_or_testBit2 (List.range 8) (fun yi xi => yi * 8 + xi)
    (fun yi xi => (data.getD (y * 8 + yi) []).getD (x * 8 + xi) 0 = 2) 0
    (row * 8 + col)]
  rw [Nat.zero_testBit, Bool.false_or]
  rw [Bool.eq_iff_iff]
  constructor
  · intro h
    rw [List.any_eq_true] at h
    obtain ⟨yi, hyi, h⟩ := h
    rw [List.any_eq_true] at h
    obtain ⟨xi, hxi, h⟩ := h
    rw [List.mem_range] at hyi hxi
    rw [Bool.and_eq_true, beq_iff_eq] at h
    obtain ⟨hp, hidx⟩ := h
    have hy : yi = row := by omega
    have hx : xi = col := by omega
    subst hy; subst hx
    exact hp
  · intro h
    rw [List.any_eq_true]
    refine ⟨row, List.mem_range.mpr hr, ?_⟩
    rw [List.any_eq_true]
    refine ⟨col, List.mem_range.mpr hc, ?_⟩
    rw [Bool.and_eq_true, beq_iff_eq]
    exact ⟨h, rfl⟩

/-- C5: slicing followed by frame encoding round-trips bit positions.  For
every frame mask `f` and `row, col < 8`, the character of the encoded bitmap
at text position `row * 9 + col` (rows are 8 characters wide plus one newline)
is `'1'` iff bit `row * 8 + col` of `f` is set, `'0'` otherwise; and the bit
`row * 8 + col` produced by `Image.slice` at tile coordinate `(x, y)` is set
iff the pixel at absolute coordinate `(x*8 + col, y*8 + row)` is on — in
particular (`row = col = 0`) the top-left pixel of the sliced block is bit 0. -/
theorem c5_slice_encode_roundtrip (f : Nat) (data : List (List Nat))
    (x y row col : Nat) (hr : row < 8) (hc : col < 8) :
    (encode_frame f).toList.get? (row * 9 + col)
        = some (if f.testBit (row * 8 + col) then '1' else '0')
      ∧ (Image.slice data x y 8).testBit (row * 8 + col)
        = ((data.getD (y * 8 + row) []).getD (x * 8 + col) 0 == 2) := by
  exact ⟨encode_frame_get f row col hr hc, slice_testBit data x y row col hr hc⟩

/-- Witness for C5: the single-on-pixel image at absolute coordinate `(0,0)`
has bit 0 set in the slice at tile `(0,0)`, and its frame text starts with
`'1'`. -/
theorem c5_slice_encode_roundtrip_witness :
    ((encode_frame 1).toList.get? 0 = some '1'
      ∧ (Image.slice [[2]] 0 0 8).testBit 0 = true)
    ∧ (encode_frame 0).toList.get? 1 = some '0' := by
  have h1 := c5_slice_encode_roundtrip 1 [[2]] 0 0 0 0 (by norm_num) (by norm_num)
  have h2 := c5_slice_encode_roundtrip 0 [[2]] 0 0 0 1 (by norm_num) (by norm_num)
  refine ⟨⟨?_, ?_⟩, ?_⟩
  · have := h1.1
    simpa using this
  · have := h1.2
    simpa using this
  · have := h2.1
    simpa using this

theorem strToList_append (a b : String) : (a ++ b).toList = a.toList ++ b.toList := by
  simp [String.toList, String.data_append]

theorem idEncode_chars (n : Nat) : ∀ c ∈ (idEncode n).toList, c ∈ ALPHABET.toList := by
  have hgo : ∀ m : Nat, ∀ str (c : Char), c ∈ (encodeGo m str).toList →
      c ∈ ALPHABET.toList ∨ c ∈ str.toList := by
    intro m
    induction m using Nat.strong_induction_on with
    | _ m ih =>
      intro str c hc
      by_cases hm : m = 0
      · subst hm
        rw [encodeGo] at hc
        simp at hc
        exact Or.inr hc
      · have hlt : m / 36 < m := Nat.div_lt_self (Nat.pos_of_ne_zero hm) (by norm_num)
        rw [encodeGo, dif_neg hm] at hc
        rcases ih (m / 36) hlt _ c hc with h | h
        · exact Or.inl h
        · rw [strToList_append] at h
          rcases List.mem_append.mp h with h | h
          · left
            have hsing : (String.singleton (alphaChar (m % 36))).toList
                = [alphaChar (m % 36)] := rfl
            rw [hsing] at h
            rcases List.mem_singleton.mp h with rfl
            have : ∀ j, j < 36 → alphaChar j ∈ ALPHABET.toList := by decide
            exact this _ (Nat.mod_lt _ (by norm_num))
          · exact Or.inr h
  intro c hc
  by_cases hn : n = 0
  · subst hn
    have h0 : idEncode 0 = "0" := by
      rw [idEncode]
      conv_lhs => rw [encodeGo]
      simp
    rw [h0] at hc
    simp at hc
    subst hc
    decide
  · rw [idEncode_of_ne_zero n hn] at hc
    rcases hgo n "" c hc with h | h
    · exact h
    · simp [String.toList] at h

theorem frameChars_mem (f : Nat) :
    ∀ rem i c, c ∈ frameChars f i rem → c = '0' ∨ c = '1' ∨ c = '\n' := by
  intro rem
  induction rem with
  | zero =>
    intro i c hc
    rw [frameChars] at hc
    simp at hc
  | succ r ih =>
    intro i c hc
    have hbit : ∀ j, bitChar f j = '0' ∨ bitChar f j = '1' := by
      intro j
      rw [bitChar]
      by_cases hb : f.testBit j <;> simp [hb]
    rw [frameChars] at hc
    by_cases hif : (i + 1) % 8 = 0 ∧ i + 1 ≠ 64
    · rw [if_pos hif, List.mem_cons, List.mem_cons] at hc
      rcases hc with heq | heq | hc
      · rcases hbit i with h | h
        · exact Or.inl (heq.trans h)
        · exact Or.inr (Or.inl (heq.trans h))
      · exact Or.inr (Or.inr heq)
      · exact ih _ _ hc
    · rw [if_neg hif, List.mem_cons] at hc
      rcases hc with heq | hc
      · rcases hbit i with h | h
        · exact Or.inl (heq.trans h)
        · exact Or.inr (Or.inl (heq.trans h))
      · exact ih _ _ hc

theorem tile_encode_one_no_gt (i : Nat) (nm : String) (f0 : Nat)
    (hnm : '>' ∉ nm.toList) : '>' ∉ (Tile.encode ⟨i, nm, [f0]⟩).toList := by
  intro hmem
  have henc : Tile.encode ⟨i, nm, [f0]⟩
      = "TIL " ++ idEncode i ++ "\n" ++ (encode_frame f0 ++ "")
          ++ "\nNAME " ++ nm ++ "\nWAL false\n" := by
    rw [Tile.encode]
    simp
  rw [henc] at hmem
  simp only [strToList_append, List.mem_append] at hmem
  rcases hmem with ((((((h | h) | h) | h) | h) | h) | h)
  · exact absurd h (by decide)
  · exact absurd (idEncode_chars i '>' h) (by decide)
  · exact absurd h (by decide)
  · rcases h with h | h
    · rcases frameChars_mem f0 64 0 '>' h with h' | h' | h' <;> exact absurd h' (by decide)
    · simp [String.toList] at h
  · exact absurd h (by decide)
  · exact hnm h
  · exact absurd h (by decide)

/-- C9: for every two-frame tile, `Tile.encode` emits the second bitmap
section and its `>` separator iff the second frame's bitmask differs from the
first.  When the two masks are equal the encoding coincides with that of the
one-frame tile — a single bitmap section and (when the tile name itself has no
`'>'`) no `'>'` character anywhere in the block; when they differ the block
contains the `>` separator line and the second bitmap. -/
theorem c9_two_frame_collapse (i : Nat) (nm : String) (f0 f1 : Nat) :
    (f0 = f1 →
        Tile.encode ⟨i, nm, [f0, f1]⟩ = Tile.encode ⟨i, nm, [f0]⟩
        ∧ ('>' ∉ nm.toList → '>' ∉ (Tile.encode ⟨i, nm, [f0, f1]⟩).toList))
      ∧ (f0 ≠ f1 →
        Tile.encode ⟨i, nm, [f0, f1]⟩
          = "TIL " ++ idEncode i ++ "\n"
              ++ (encode_frame f0 ++ ("\n>\n" ++ encode_frame f1))
              ++ "\nNAME " ++ nm ++ "\nWAL false\n") := by
  constructor
  · rintro rfl
    have heq : Tile.encode ⟨i, nm, [f0, f0]⟩ = Tile.encode ⟨i, nm, [f0]⟩ := by
      rw [Tile.encode, Tile.encode]
      simp
    refine ⟨heq, ?_⟩
    intro hnm
    rw [heq]
    exact tile_encode_one_no_gt i nm f0 hnm
  · intro hne
    rw [Tile.encode]
    simp only [List.length_cons, List.length_singleton, List.getD]
    rw [if_pos ⟨rfl, hne⟩]
    rfl

/-- Witness for C9: a tile with two equal all-zero frames encodes like the
one-frame tile with no `'>'`; a tile with frames `0 ≠ 1` encodes both
bitmaps. -/
theorem c9_two_frame_collapse_witness :
    (Tile.encode ⟨1, "t", [0, 0]⟩ = Tile.encode ⟨1, "t", [0]⟩
      ∧ '>' ∉ (Tile.encode ⟨1, "t", [0, 0]⟩).toList)
    ∧ Tile.encode ⟨1, "t", [0, 1]⟩
        = "TIL " ++ idEncode 1 ++ "\n"
            ++ (encode_frame 0 ++ ("\n>\n" ++ encode_frame 1))
            ++ "\nNAME " ++ "t" ++ "\nWAL false\n" := by
  have h1 := (c9_two_frame_collapse 1 "t" 0 0).1 rfl
  have h2 := (c9_two_frame_collapse 1 "t" 0 1).2 (by norm_num)
  exact ⟨⟨h1.1, h1.2 (by decide)⟩, h2⟩

/-! ## Room model (`gen-rooms.py`, class `Room`) -/

/-- `Room.SIZE = 16` (gen-rooms.py line 115). -/
def Room.SIZE : Nat := 16

/-- The cell enumeration of `Room.encode` (gen-rooms.py lines 161-162):
`y` outer, `x` inner, both `0`-indexed over `Room.SIZE`. -/
def roomCells : List (Nat × Nat) :=
  (List.range Room.SIZE).bind fun y => (List.range Room.SIZE).map fun x => (x, y)

/-- The tile name `"{0} ({1},{2})".format(self.name, x, y)`
(gen-rooms.py line 178). -/
def tileName (room : String) (x y : Nat) : String :=
  room ++ " (" ++ toString x ++ "," ++ toString y ++ ")"

/-- The per-cell loop of `Room.encode` (gen-rooms.py lines 161-183):
`sl x y` stands for the list of per-frame slices of cell `(x, y)`.  A cell
whose slices are all zero appends `Tile.empty()`; otherwise a tile is built
with a copy of the current allocator value `tid`.  In both cases
`tid.advance()` runs, so the recursive call uses `tid + 1`.  Returns the tile
list and the final allocator value. -/
def encodeCells (nm : String) (sl : Nat → Nat → List Nat) :
    List (Nat × Nat) → Nat → List Tile × Nat
  | [], tid => ([], tid)
  | (x, y) :: rest, tid =>
    let res := encodeCells nm sl rest (tid + 1)
    ((if (sl x y).all (· == 0) then Tile.empty
      else ⟨tid, tileName nm x y, sl x y⟩) :: res.1, res.2)

/-- The grid-string loop of `Room.encode` (gen-rooms.py lines 187-197): append
each id, then nothing at the very end, a newline at the end of each 16-wide
row, and a comma otherwise.  `i` is the running index and `total` the tile
count. -/
def gridAux : List String → Nat → Nat → String
  | [], _, _ => ""
  | s :: rest, i, total =>
    s ++ (if i + 1 = total then ""
          else if (i + 1) % 16 = 0 then "\n" else ",") ++ gridAux rest (i + 1) total

/-- The grid string of a room's tile list. -/
def gridStr (tiles : List Tile) : String :=
  gridAux (tiles.map fun t => idEncode t.id) 0 tiles.length

/-- The tile text of `Room.encode` (gen-rooms.py lines 213-217): the
concatenated `encode()` blocks, each followed by a newline, of the non-empty
tiles in cell order. -/
def tilesStr (tiles : List Tile) : String :=
  String.join ((tiles.filter fun t => !t.is_empty).map fun t => Tile.encode t ++ "\n")

/-! ### Lemmas about the cell loop -/

theorem encodeCells_snd (nm : String) (sl : Nat → Nat → List Nat) :
    ∀ (cells : List (Nat × Nat)) (tid : Nat),
      (encodeCells nm sl cells tid).2 = tid + cells.length := by
  intro cells
  induction cells with
  | nil => intro tid; simp [encodeCells]
  | cons c rest ih =>
    intro tid
    obtain ⟨x, y⟩ := c
    rw [encodeCells]
    simp only [List.length_cons]
    rw [ih (tid + 1)]
    omega

theorem encodeCells_length (nm : String) (sl : Nat → Nat → List Nat) :
    ∀ (cells : List (Nat × Nat)) (tid : Nat),
      (encodeCells nm sl cells tid).1.length = cells.length := by
  intro cells
  induction cells with
  | nil => intro tid; simp [encodeCells]
  | cons c rest ih =>
    intro tid
    obtain ⟨x, y⟩ := c
    rw [encodeCells]
    simp only [List.length_cons]
    rw [ih (tid + 1)]

theorem encodeCells_get (nm : String) (sl : Nat → Nat → List Nat) :
    ∀ (cells : List (Nat × Nat)) (tid i x y : Nat), cells.get? i = some (x, y) →
      (encodeCells nm sl cells tid).1.get? i
        = some (if (sl x y).all (· == 0) then Tile.empty
                else ⟨tid + i, tileName nm x y, sl x y⟩) := by
  intro cells
  induction cells with
  | nil => intro tid i x y h; simp at h
  | cons c rest ih =>
    intro tid i x y h
    obtain ⟨a, b⟩ := c
    rw [encodeCells]
    cases i with
    | zero =>
      simp only [List.get?] at h
      injection h with h
      injection h with h1 h2
      subst h1; subst h2
      simp
    | succ i =>
      simp only [List.get?] at h ⊢
      rw [ih (tid + 1) i x y h]
      have : tid + 1 + i = tid + (i + 1) := by omega
      rw [this]

set_option maxRecDepth 4000 in
theorem roomCells_length : roomCells.length = 256 := by decide

set_option maxRecDepth 8000 in
/-- C1 counterexample: encoding a room whose 256 cells are all empty starting
from allocator value 1 leaves the allocator at 257, not at
`1 + (number of non-empty cells) = 1`: the allocator is advanced at every
cell, not only at non-empty ones. -/
theorem c1_allocator_counterexample :
    (encodeCells "room1" (fun _ _ => [0]) roomCells 1).2
      ≠ 1 + ((encodeCells "room1" (fun _ _ => [0]) roomCells 1).1.countP
              fun t => !t.is_empty) := by decide

/-- C1 amended: during `Room.encode`, every cell whose frame masks are all
zero reuses the shared empty tile (no named tile is constructed for it), but
the tile-id allocator is advanced once per cell regardless of emptiness, so
after encoding a room the allocator has increased by exactly 256 (the number
of cells), not by the number of non-empty cells; the values skipped at empty
cells are simply never used. -/
theorem c1_allocator_amended (nm : String) (sl : Nat → Nat → List Nat) (tid : Nat) :
    (encodeCells nm sl roomCells tid).2 = tid + 256
      ∧ (∀ i x y, roomCells.get? i = some (x, y) → (sl x y).all (· == 0) →
          (encodeCells nm sl roomCells tid).1.get? i = some Tile.empty) := by
  constructor
  · rw [encodeCells_snd, roomCells_length]
  · intro i x y hget hall
    rw [encodeCells_get nm sl roomCells tid i x y hget]
    simp [hall]

set_option maxRecDepth 8000 in
/-- Witness for C1 (amended) on an all-empty room starting at allocator 5. -/
theorem c1_allocator_amended_witness :
    (encodeCells "room1" (fun _ _ => [0]) roomCells 5).2 = 5 + 256
      ∧ (encodeCells "room1" (fun _ _ => [0]) roomCells 5).1.get? 0 = some Tile.empty := by
  have h := c1_allocator_amended "room1" (fun _ _ => [0]) 5
  exact ⟨h.1, h.2 0 0 0 (by decide) (by decide)⟩

/-! ### Grid shape: the emitted grid is 16 rows of 16 comma-separated ids -/

/-- Separator join (`sep.join(parts)`), used to state the row/line structure
of the grid string. -/
def sepJoin (sep : String) : List String → String
  | [] => ""
  | [s] => s
  | s :: t :: rest => s ++ sep ++ sepJoin sep (t :: rest)

/-- The 16-element rows of a flat cell list. -/
def chunk16 : List String → List (List String)
  | [] => []
  | l@(_ :: _) => l.take 16 :: chunk16 (l.drop 16)
termination_by l => l.length
decreasing_by subst_vars; simp only [List.length_drop, List.length_cons]; omega

theorem sepJoin_cons (sep x : String) (ys : List String) (h : ys ≠ []) :
    sepJoin sep (x :: ys) = x ++ sep ++ sepJoin sep ys := by
  cases ys with
  | nil => exact absurd rfl h
  | cons b t => rw [sepJoin]

theorem chunk16_cons (l : List String) (h : l ≠ []) :
    chunk16 l = l.take 16 :: chunk16 (l.drop 16) := by
  cases l with
  | nil => exact absurd rfl h
  | cons x rest => rw [chunk16]

theorem gridAux_row :
    ∀ (row : List String), row ≠ [] → ∀ (rest : List String) (i total : Nat),
      row.length + i % 16 = 16 → i + row.length + rest.length = total →
      gridAux (row ++ rest) i total
        = sepJoin "," row
            ++ (if rest = [] then ""
                else "\n" ++ gridAux rest (i + row.length) total) := by
  intro row
  induction row with
  | nil => intro h; exact absurd rfl h
  | cons a rs ih =>
    intro _ rest i total hlen htot
    cases rs with
    | nil =>
      simp only [List.length_cons, List.length_nil] at hlen htot
      rw [List.cons_append, List.nil_append, gridAux]
      cases rest with
      | nil =>
        have h1 : i + 1 = total := by simp at htot; omega
        rw [if_pos rfl, if_pos h1]
        rw [gridAux]
        simp [sepJoin]
      | cons r rest' =>
        have h1 : i + 1 ≠ total := by simp at htot; omega
        have h2 : (i + 1) % 16 = 0 := by omega
        rw [if_neg (by simp : (r :: rest') ≠ [])]
        rw [if_neg h1, if_pos h2]
        simp only [sepJoin, List.length_cons, List.length_nil]
        rw [String.append_assoc]
    | cons b rs' =>
      have hne : (b :: rs') ++ rest ≠ [] := by simp
      rw [List.cons_append, gridAux]
      simp only [List.length_cons] at hlen htot
      have h1 : i + 1 ≠ total := by omega
      have h2 : ¬((i + 1) % 16 = 0) := by omega
      rw [if_neg h1, if_neg h2]
      have hlen' : (b :: rs').length + (i + 1) % 16 = 16 := by
        simp only [List.length_cons]
        omega
      have htot' : i + 1 + (b :: rs').length + rest.length = total := by
        simp only [List.length_cons]
        omega
      rw [ih (by simp) rest (i + 1) total hlen' htot']
      rw [sepJoin_cons "," a (b :: rs') (by simp)]
      have hidx : i + 1 + (b :: rs').length = i + (b :: rs').length + 1 := by omega
      simp only [List.length_cons] at hidx ⊢
      rw [hidx]
      cases rest with
      | nil =>
        rw [if_pos rfl, if_pos rfl]
        simp [String.append_assoc]
      | cons r rest' =>
        rw [if_neg (by simp), if_neg (by simp)]
        have : i + (rs'.length + 1) + 1 = i + (rs'.length + 1 + 1) := by omega
        rw [this]
        simp [String.append_assoc]

theorem gridAux_chunks :
    ∀ (m : Nat) (ids : List String) (i total : Nat),
      ids.length = 16 * m → i % 16 = 0 → i + ids.length = total →
      gridAux ids i total = sepJoin "\n" ((chunk16 ids).map (sepJoin ",")) := by
  intro m
  induction m with
  | zero =>
    intro ids i total hlen _ _
    have : ids = [] := List.eq_nil_of_length_eq_zero (by omega)
    subst this
    rw [gridAux, chunk16]
    simp [sepJoin]
  | succ m ih =>
    intro ids i total hlen hi htot
    have hne : ids ≠ [] := by
      intro h
      rw [h] at hlen
      simp only [List.length_nil] at hlen
      omega
    have hrowlen : (ids.take 16).length = 16 := by
      rw [List.length_take]
      omega
    have hrestlen : (ids.drop 16).length = 16 * m := by
      rw [List.length_drop]
      omega
    have hrowne : ids.take 16 ≠ [] := by
      intro h
      rw [h] at hrowlen
      simp at hrowlen
    conv_lhs => rw [← List.take_append_drop 16 ids]
    rw [gridAux_row (ids.take 16) hrowne (ids.drop 16) i total
      (by omega) (by rw [hrowlen, hrestlen]; omega)]
    rw [chunk16_cons ids hne, List.map_cons]
    cases m with
    | zero =>
      have hrest : ids.drop 16 = [] := List.eq_nil_of_length_eq_zero (by omega)
      rw [hrest, if_pos rfl, chunk16]
      simp [sepJoin]
    | succ m' =>
      have hrest : ids.drop 16 ≠ [] := by
        intro h
        rw [h] at hrestlen
        simp only [List.length_nil] at hrestlen
        omega
      rw [if_neg hrest]
      rw [ih (ids.drop 16) (i + (ids.take 16).length) total
        (by omega) (by omega) (by rw [hrowlen, hrestlen]; omega)]
      have hchne : (chunk16 (ids.drop 16)).map (sepJoin ",") ≠ [] := by
        rw [chunk16_cons _ hrest]
        simp
      rw [sepJoin_cons "\n" _ _ hchne]
      rw [String.append_assoc]

/-! ### A conversion run: rooms threading one shared tile allocator -/

/-- One discovered room, as the driver sees it: its name and the per-cell
frame slices obtained from its images. -/
structure RoomSrc where
  name : String
  sl : Nat → Nat → List Nat

/-- The per-room tile lists of the driver loop (gen-rooms.py lines 367-371):
each room's `encode` threads the one shared tile allocator, which `GenRooms`
starts at `Id(1)` (line 358), reserving 0 for the shared empty tile. -/
def runTiles : List RoomSrc → Nat → List (List Tile)
  | [], _ => []
  | r :: rest, tid =>
    (encodeCells r.name r.sl roomCells tid).1
      :: runTiles rest (encodeCells r.name r.sl roomCells tid).2

theorem encodeCells_mem_bounds (nm : String) (sl : Nat → Nat → List Nat) :
    ∀ (cells : List (Nat × Nat)) (tid : Nat) (t : Tile),
      t ∈ (encodeCells nm sl cells tid).1 →
      t = Tile.empty ∨ (tid ≤ t.id ∧ t.id < tid + cells.length) := by
  intro cells
  induction cells with
  | nil =>
    intro tid t h
    rw [encodeCells] at h
    simp at h
  | cons c rest ih =>
    intro tid t h
    obtain ⟨x, y⟩ := c
    rw [encodeCells] at h
    rcases List.mem_cons.mp h with h | h
    · by_cases he : (sl x y).all (· == 0)
      · rw [if_pos he] at h
        exact Or.inl h
      · rw [if_neg he] at h
        right
        subst h
        simp only [List.length_cons]
        omega
    · rcases ih (tid + 1) t h with h' | h'
      · exact Or.inl h'
      · right
        simp only [List.length_cons]
        omega

theorem encodeCells_filter_pairwise (nm : String) (sl : Nat → Nat → List Nat) :
    ∀ (cells : List (Nat × Nat)) (tid : Nat),
      ((encodeCells nm sl cells tid).1.filter fun t => !t.is_empty).Pairwise
        (fun a b => a.id ≠ b.id) := by
  intro cells
  induction cells with
  | nil =>
    intro tid
    rw [encodeCells]
    simp
  | cons c rest ih =>
    intro tid
    obtain ⟨x, y⟩ := c
    rw [encodeCells]
    by_cases he : (sl x y).all (· == 0)
    · rw [if_pos he, List.filter_cons]
      have hp : (!Tile.empty.is_empty) = false := rfl
      rw [hp]
      simp only [Bool.false_eq_true, if_false]
      exact ih (tid + 1)
    · rw [if_neg he, List.filter_cons]
      by_cases ht : tid = 0
      · have hp : (!Tile.is_empty ⟨tid, tileName nm x y, sl x y⟩) = false := by
          simp [Tile.is_empty, ht]
        rw [hp]
        simp only [Bool.false_eq_true, if_false]
        exact ih (tid + 1)
      · have hp : (!Tile.is_empty ⟨tid, tileName nm x y, sl x y⟩) = true := by
          simp [Tile.is_empty, ht]
        rw [hp, if_pos rfl, List.pairwise_cons]
        constructor
        · intro u hu
          have hu' : u ∈ (encodeCells nm sl rest (tid + 1)).1 :=
            (List.mem_filter.mp hu).1
          have hne0 : u.id ≠ 0 := by
            have := (List.mem_filter.mp hu).2
            simp [Tile.is_empty] at this
            exact this
          rcases encodeCells_mem_bounds nm sl rest (tid + 1) u hu' with h' | h'
          · rw [h'] at hne0
            simp [Tile.empty] at hne0
          · simp only
            omega
        · exact ih (tid + 1)

theorem runTiles_mem_shape :
    ∀ (rooms : List RoomSrc) (tid : Nat) (ts : List Tile), ts ∈ runTiles rooms tid →
      ∃ nm sl tid', ts = (encodeCells nm sl roomCells tid').1 := by
  intro rooms
  induction rooms with
  | nil =>
    intro tid ts h
    rw [runTiles] at h
    simp at h
  | cons r rest ih =>
    intro tid ts h
    rw [runTiles] at h
    rcases List.mem_cons.mp h with h | h
    · exact ⟨r.name, r.sl, tid, h⟩
    · exact ih _ ts h

theorem runTiles_flatten_bounds :
    ∀ (rooms : List RoomSrc) (tid : Nat) (t : Tile), t ∈ (runTiles rooms tid).flatten →
      t = Tile.empty ∨ (tid ≤ t.id ∧ t.id < tid + 256 * rooms.length) := by
  intro rooms
  induction rooms with
  | nil =>
    intro tid t h
    rw [runTiles] at h
    simp at h
  | cons r rest ih =>
    intro tid t h
    rw [runTiles, List.flatten_cons, List.mem_append] at h
    rcases h with h | h
    · rcases encodeCells_mem_bounds r.name r.sl roomCells tid t h with h' | h'
      · exact Or.inl h'
      · right
        rw [roomCells_length] at h'
        simp only [List.length_cons]
        constructor
        · exact h'.1
        · have : 256 * (rest.length + 1) = 256 * rest.length + 256 := by ring
          omega
    · have hsnd : (encodeCells r.name r.sl roomCells tid).2 = tid + 256 := by
        rw [encodeCells_snd, roomCells_length]
      rw [hsnd] at h
      rcases ih (tid + 256) t h with h' | h'
      · exact Or.inl h'
      · right
        simp only [List.length_cons]
        have : 256 * (rest.length + 1) = 256 * rest.length + 256 := by ring
        omega

theorem runTiles_flatten_pairwise :
    ∀ (rooms : List RoomSrc) (tid : Nat),
      ((runTiles rooms tid).flatten.filter fun t => !t.is_empty).Pairwise
        (fun a b => a.id ≠ b.id) := by
  intro rooms
  induction rooms with
  | nil =>
    intro tid
    rw [runTiles]
    simp
  | cons r rest ih =>
    intro tid
    rw [runTiles, List.flatten_cons, List.filter_append, List.pairwise_append]
    have hsnd : (encodeCells r.name r.sl roomCells tid).2 = tid + 256 := by
      rw [encodeCells_snd, roomCells_length]
    refine ⟨encodeCells_filter_pairwise r.name r.sl roomCells tid, ?_, ?_⟩
    · rw [hsnd]
      exact ih (tid + 256)
    · intro a ha b hb
      have ha' := List.mem_filter.mp ha
      have hb' := List.mem_filter.mp hb
      have ha0 : a.id ≠ 0 := by
        have := ha'.2
        simp [Tile.is_empty] at this
        exact this
      have hb0 : b.id ≠ 0 := by
        have := hb'.2
        simp [Tile.is_empty] at this
        exact this
      have hab : a.id < tid + 256 := by
        rcases encodeCells_mem_bounds r.name r.sl roomCells tid a ha'.1 with h' | h'
        · rw [h'] at ha0
          simp [Tile.empty] at ha0
        · rw [roomCells_length] at h'
          exact h'.2
      have hbb : tid + 256 ≤ b.id := by
        rw [hsnd] at hb'
        rcases runTiles_flatten_bounds rest (tid + 256) b hb'.1 with h' | h'
        · rw [h'] at hb0
          simp [Tile.empty] at hb0
        · exact h'.1
      omega

theorem pairwise_countP_eq_one (l : List Tile)
    (hp : l.Pairwise fun a b => a.id ≠ b.id) :
    ∀ t ∈ l, (l.countP fun u => u.id == t.id) = 1 := by
  induction l with
  | nil =>
    intro t h
    simp at h
  | cons a l' ih =>
    intro t ht
    rw [List.pairwise_cons] at hp
    rw [List.countP_cons]
    rcases List.mem_cons.mp ht with rfl | ht'
    · have hz : (l'.countP fun u => u.id == t.id) = 0 := by
        rw [List.countP_eq_zero]
        intro u hu
        simp only [beq_iff_eq]
        exact fun h => hp.1 u hu h.symm
      rw [hz]
      simp
    · have hne : (a.id == t.id) = false := by
        simp only [beq_eq_false_iff_ne, ne_eq]
        exact hp.1 t ht'
      rw [ih hp.2 t ht', hne]
      simp

theorem idEncode_zero : idEncode 0 = "0" := by
  rw [idEncode]
  conv_lhs => rw [encodeGo]
  simp

theorem decode36_idEncode (n : Nat) : decode36 (idEncode n) = n := by
  by_cases hn : n = 0
  · subst hn
    rw [idEncode_zero]
    decide
  · rw [idEncode_of_ne_zero n hn]
    exact decode36_encodeGo n

theorem idEncode_inj {a b : Nat} (h : idEncode a = idEncode b) : a = b := by
  rw [← decode36_idEncode a, h, decode36_idEncode b]

theorem idEncode_beq (a b : Nat) : (idEncode a == idEncode b) = (a == b) := by
  by_cases h : a = b
  · subst h
    simp
  · have hne : idEncode a ≠ idEncode b := fun he => h (idEncode_inj he)
    simp [h, hne]

theorem chunk16_shape :
    ∀ (m : Nat) (ids : List String), ids.length = 16 * m →
      (chunk16 ids).length = m ∧ ∀ row ∈ chunk16 ids, row.length = 16 := by
  intro m
  induction m with
  | zero =>
    intro ids h
    have : ids = [] := List.eq_nil_of_length_eq_zero (by omega)
    subst this
    rw [chunk16]
    simp
  | succ m ih =>
    intro ids h
    have hne : ids ≠ [] := by
      intro he
      rw [he] at h
      simp only [List.length_nil] at h
      omega
    rw [chunk16_cons ids hne]
    have htake : (ids.take 16).length = 16 := by
      rw [List.length_take]
      omega
    have hdrop : (ids.drop 16).length = 16 * m := by
      rw [List.length_drop]
      omega
    obtain ⟨h1, h2⟩ := ih (ids.drop 16) hdrop
    refine ⟨by simp [h1], ?_⟩
    intro row hrow
    rcases List.mem_cons.mp hrow with rfl | hr
    · exact htake
    · exact h2 row hr

/-- C8: for every room encoded in a run started with tile allocator 1, the
emitted grid contains exactly 256 identifiers arranged 16 per line over 16
lines (the grid string is the newline-join of 16 comma-joined rows of 16),
and every identifier is either `"0"` — the shared empty tile, which is never
among the emitted (named) tile definitions — or matches exactly one tile
definition emitted in the same run's tile list, with no two distinct
non-empty cells across the run sharing an identifier. -/
theorem c8_grid_invariant (rooms : List RoomSrc) (ts : List Tile)
    (hts : ts ∈ runTiles rooms 1) :
    ts.length = 256
    ∧ gridStr ts
        = sepJoin "\n" ((chunk16 (ts.map fun t => idEncode t.id)).map (sepJoin ","))
    ∧ (chunk16 (ts.map fun t => idEncode t.id)).length = 16
    ∧ (∀ row ∈ chunk16 (ts.map fun t => idEncode t.id), row.length = 16)
    ∧ (∀ t ∈ ts,
        (t.is_empty = true ∧ idEncode t.id = "0"
            ∧ t ∉ (runTiles rooms 1).flatten.filter (fun u => !u.is_empty))
        ∨ (t.is_empty = false ∧
            (((runTiles rooms 1).flatten.filter fun u => !u.is_empty).countP
                fun u => idEncode u.id == idEncode t.id) = 1))
    ∧ ((runTiles rooms 1).flatten.filter fun u => !u.is_empty).Pairwise
        (fun a b => a.id ≠ b.id)
    ∧ ∀ u ∈ (runTiles rooms 1).flatten.filter fun u => !u.is_empty, u.id ≠ 0 := by
  obtain ⟨nm, sl, tid', hrep⟩ := runTiles_mem_shape rooms 1 ts hts
  have hlen : ts.length = 256 := by
    rw [hrep, encodeCells_length, roomCells_length]
  have hmaplen : (ts.map fun t => idEncode t.id).length = 256 := by
    simp [hlen]
  refine ⟨hlen, ?_, ?_, ?_, ?_, runTiles_flatten_pairwise rooms 1, ?_⟩
  · rw [gridStr]
    exact gridAux_chunks 16 _ 0 ts.length (by rw [hmaplen]) (by norm_num)
      (by rw [hmaplen, hlen])
  · exact (chunk16_shape 16 _ (by rw [hmaplen])).1
  · exact (chunk16_shape 16 _ (by rw [hmaplen])).2
  · intro t ht
    by_cases he : t.is_empty = true
    · left
      have hid0 : t.id = 0 := by
        have := he
        simp [Tile.is_empty] at this
        exact this
      refine ⟨he, by rw [hid0, idEncode_zero], ?_⟩
      intro hmem
      have := (List.mem_filter.mp hmem).2
      rw [he] at this
      simp at this
    · right
      have he' : t.is_empty = false := by
        simpa using he
      refine ⟨he', ?_⟩
      have htj : t ∈ (runTiles rooms 1).flatten :=
        List.mem_flatten.mpr ⟨ts, hts, ht⟩
      have htf : t ∈ (runTiles rooms 1).flatten.filter (fun u => !u.is_empty) :=
        List.mem_filter.mpr ⟨htj, by rw [he']; rfl⟩
      simp only [idEncode_beq]
      exact pairwise_countP_eq_one _ (runTiles_flatten_pairwise rooms 1) t htf
  · intro u hu
    have := (List.mem_filter.mp hu).2
    simp [Tile.is_empty] at this
    exact this

set_option maxRecDepth 8000 in
/-- Witness for C8 on a run of one all-empty room. -/
theorem c8_grid_invariant_witness :
    ((encodeCells "r" (fun _ _ => [0]) roomCells 1).1).length = 256
    ∧ (chunk16 (((encodeCells "r" (fun _ _ => [0]) roomCells 1).1).map
          fun t => idEncode t.id)).length = 16 := by
  have h := c8_grid_invariant [⟨"r", fun _ _ => [0]⟩]
    (encodeCells "r" (fun _ _ => [0]) roomCells 1).1
    (by rw [runTiles]; exact List.mem_cons_self _ _)
  exact ⟨h.1, h.2.2.1⟩

/-! ## Conversion driver grouping (`gen-rooms.py`, `GenRooms.__call__`) -/

/-- `os.path.splitext`: split a filename at its last dot into stem and
extension.  (Python also special-cases names consisting only of leading dots;
the filenames considered here have none.) -/
def splitext (f : String) : String × String :=
  let cs := f.toList
  let extLen := (cs.reverse.takeWhile (fun c => c ≠ '.')).length
  if extLen < cs.length then
    (String.mk (cs.take (cs.length - extLen - 1)),
      String.mk (cs.drop (cs.length - extLen - 1)))
  else (f, "")

/-- Python's `str.split` on a one-character separator, at the char level
(splitting on every occurrence, keeping empty parts, one part when the
separator is absent). -/
def splitOnChar (sep : Char) : List Char → List (List Char)
  | [] => [[]]
  | c :: rest =>
    if c = sep then [] :: splitOnChar sep rest
    else
      match splitOnChar sep rest with
      | [] => [[c]]
      | p :: ps => (c :: p) :: ps

/-- The destructuring `name, _ = name.split("@")` (gen-rooms.py line 346):
Python raises `ValueError` unless the split yields exactly two parts, i.e.
unless the stem contains exactly one `'@'`; `none` models that exception. -/
def stripFrame (stem : String) : Option String :=
  match splitOnChar '@' stem.toList with
  | [n, _] => some (String.mk n)
  | _ => none

/-- The room dict of `GenRooms.__call__` as an insertion-ordered association
list of name ↦ frame count: find-or-create the room, then `add_frame`
(gen-rooms.py lines 348-354). -/
def addFrame : List (String × Nat) → String → List (String × Nat)
  | [], nm => [(nm, 1)]
  | (n, k) :: rest, nm =>
    if n = nm then (n, k + 1) :: rest else (n, k) :: addFrame rest nm

/-- The discovery loop of `GenRooms.__call__` (gen-rooms.py lines 340-354)
over the sorted filename list (directory listing and the `isfile` check are
external; every listed name is taken to be a regular file): keep `.png`
files, strip the frame suffix, and group into rooms with frame counts.
`none` models the uncaught `ValueError` aborting the run. -/
def groupRooms (files : List String) : Option (List (String × Nat)) :=
  files.foldl
    (fun acc f =>
      match acc with
      | none => none
      | some rooms =>
        if (splitext f).2 = ".png" then
          match stripFrame (splitext f).1 with
          | none => none
          | some nm => some (addFrame rooms nm)
        else some rooms)
    (some [])

/-- C2 (code bug): on a directory containing `room1.png` and `room1@1.png`
the run does not succeed — the driver's `name, _ = name.split("@")` raises
`ValueError` on the suffix-less `room1.png` (its stem has no `'@'`), so no
ROOM record is ever emitted.  The claim describes the intended behaviour
(`Room.encode` even checks for the suffix-less `<name>.png` form, gen-rooms.py
lines 144-148), which the grouping code contradicts. -/
theorem c2_grouping_failure :
    groupRooms ["room1.png", "room1@1.png"] = none
      ∧ stripFrame "room1" = none ∧ splitext "room1.png" = ("room1", ".png") := by
  refine ⟨by decide, by decide, by decide⟩

/-! ## Wall annotator (`add-walls.py`, class `AddWalls`)

The Python code scans a mutable line array with an index `i` that strictly
increases (`set_tile_wall` returns at least `i + 10`, and the in-place
insert/replace only touches indices `≥ i + 9`), so earlier lines are never
revisited; the loop is modelled as structural recursion on the remaining
suffix of the line list. -/

/-- The number of `'1'` characters in one line (`for c in line: if c == '1'`,
add-walls.py lines 62-64).  `readlines` keeps the trailing newline in each
line, which is counted over but never equals `'1'`. -/
def countOnes (line : String) : Nat := line.toList.countP (fun c => c == '1')

/-- The wall line `"WAL {0}\n".format("true" if count > 20 else "false")`
(add-walls.py line 69). -/
def wallStr (count : Nat) : String :=
  if count > 20 then "WAL true\n" else "WAL false\n"

/-- Python's `str.startswith`, at the char level (Lean's own
`String.startsWith` is definitionally opaque to evaluation). -/
def startswith (s pre : String) : Bool := pre.toList.isPrefixOf s.toList

/-- The `while True` search of `set_tile_wall` (add-walls.py lines 72-85),
starting right after the bitmap.  On a line starting with `WAL` the line is
replaced by `wall` and scanning resumes after it; on a blank line `wall` is
inserted before it and scanning resumes at the blank line itself
(`j += 1` lands on the shifted blank); any other line is passed through and
the search continues.  Returns the consumed lines (with the wall line in
place) and the suffix at which the main loop resumes; `none` is the
`IndexError` when the list is exhausted (the malformed-record failure). -/
def findWal (wall : String) : List String → Option (List String × List String)
  | [] => none
  | l :: rest =>
    if startswith l "WAL" then some ([wall], rest)
    else if l = "\n" then some ([wall], l :: rest)
    else
      match findWal wall rest with
      | none => none
      | some (c, r) => some (l :: c, r)

/-- `AddWalls.set_tile_wall` (add-walls.py lines 50-90): read the 8 lines
after the `TIL` line (an `IndexError`, i.e. `none`, if fewer remain), count
their `'1'`s, then locate and set the wall line.  Returns the fully processed
lines of this block and the suffix at which scanning resumes. -/
def setTileWall (til : String) (rest : List String) :
    Option (List String × List String) :=
  if rest.length < 8 then none
  else
    match findWal (wallStr (((rest.take 8).map countOnes).sum)) (rest.drop 8) with
    | none => none
    | some (c, r) => some (til :: (rest.take 8 ++ c), r)

theorem findWal_rest_length (w : String) :
    ∀ (ls c r : List String), findWal w ls = some (c, r) → r.length ≤ ls.length := by
  intro ls
  induction ls with
  | nil =>
    intro c r h
    rw [findWal] at h
    exact absurd h (by simp)
  | cons l rest ih =>
    intro c r h
    rw [findWal] at h
    by_cases h1 : startswith l "WAL"
    · rw [if_pos h1] at h
      simp only [Option.some.injEq, Prod.mk.injEq] at h
      rw [← h.2]
      simp
    · rw [if_neg h1] at h
      by_cases h2 : l = "\n"
      · rw [if_pos h2] at h
        simp only [Option.some.injEq, Prod.mk.injEq] at h
        rw [← h.2]
      · rw [if_neg h2] at h
        cases hf : findWal w rest with
        | none =>
          rw [hf] at h
          simp at h
        | some cr =>
          obtain ⟨c', r'⟩ := cr
          rw [hf] at h
          simp only [Option.some.injEq, Prod.mk.injEq] at h
          have := ih c' r' hf
          rw [← h.2]
          simp only [List.length_cons]
          omega

theorem setTileWall_rest_le (til : String) (rest done r : List String)
    (h : setTileWall til rest = some (done, r)) : r.length ≤ rest.length := by
  rw [setTileWall] at h
  by_cases h8 : rest.length < 8
  · rw [if_pos h8] at h
    exact absurd h (by simp)
  · rw [if_neg h8] at h
    cases hf : findWal (wallStr (((rest.take 8).map countOnes).sum)) (rest.drop 8) with
    | none =>
      rw [hf] at h
      simp at h
    | some cr =>
      obtain ⟨c, r'⟩ := cr
      rw [hf] at h
      simp only [Option.some.injEq, Prod.mk.injEq] at h
      have hle := findWal_rest_length _ _ _ _ hf
      rw [List.length_drop] at hle
      rw [← h.2]
      omega

/-- The main loop of `AddWalls.__call__` (add-walls.py lines 34-42): lines
starting with `TIL` are handled by `set_tile_wall`, every other line passes
through; `none` is a propagated `IndexError`. -/
def walk : List String → Option (List String)
  | [] => some []
  | l :: rest =>
    if startswith l "TIL" then
      match h : setTileWall l rest with
      | none => none
      | some (done, r) => (walk r).map (fun out => done ++ out)
    else (walk rest).map (fun out => l :: out)
termination_by ls => ls.length
decreasing_by
  · have := setTileWall_rest_le l rest done r h
    simp only [List.length_cons]
    omega
  · simp only [List.length_cons]
    omega

/-- `AddWalls.__call__` (add-walls.py lines 28-47): the file contents after a
run — the loop's rewritten lines are written back only when the whole scan
succeeds; an exception propagates before the final write, leaving the file
unchanged. -/
def addWallsRun (file : List String) : List String :=
  match walk file with
  | some out => out
  | none => file

theorem walk_nil : walk [] = some [] := by rw [walk]

theorem walk_cons_other (l : String) (rest : List String)
    (hl : startswith l "TIL" = false) :
    walk (l :: rest) = (walk rest).map (fun out => l :: out) := by
  rw [walk, if_neg (by simp [hl])]

theorem walk_cons_til_none (l : String) (rest : List String)
    (hl : startswith l "TIL" = true) (hst : setTileWall l rest = none) :
    walk (l :: rest) = none := by
  rw [walk, if_pos hl]
  split
  · rfl
  · next done r heq =>
      rw [hst] at heq
      simp at heq

theorem walk_cons_til_some (l : String) (rest done r : List String)
    (hl : startswith l "TIL" = true) (hst : setTileWall l rest = some (done, r)) :
    walk (l :: rest) = (walk r).map (fun out => done ++ out) := by
  rw [walk, if_pos hl]
  split
  · next heq =>
      rw [hst] at heq
      simp at heq
  · next d2 r2 heq =>
      rw [hst] at heq
      simp only [Option.some.injEq, Prod.mk.injEq] at heq
      rw [heq.1, heq.2]

theorem findWal_mem (w : String) :
    ∀ (ls c r : List String), findWal w ls = some (c, r) → w ∈ c := by
  intro ls
  induction ls with
  | nil =>
    intro c r h
    rw [findWal] at h
    exact absurd h (by simp)
  | cons l rest ih =>
    intro c r h
    rw [findWal] at h
    by_cases h1 : startswith l "WAL"
    · rw [if_pos h1] at h
      simp only [Option.some.injEq, Prod.mk.injEq] at h
      rw [← h.1]
      simp
    · rw [if_neg h1] at h
      by_cases h2 : l = "\n"
      · rw [if_pos h2] at h
        simp only [Option.some.injEq, Prod.mk.injEq] at h
        rw [← h.1]
        simp
      · rw [if_neg h2] at h
        cases hf : findWal w rest with
        | none =>
          rw [hf] at h
          simp at h
        | some cr =>
          obtain ⟨c', r'⟩ := cr
          rw [hf] at h
          simp only [Option.some.injEq, Prod.mk.injEq] at h
          rw [← h.1]
          exact List.mem_cons_of_mem l (ih c' r' hf)

/-- C3: for every `TIL` block the annotator processes successfully, the wall
line placed into the block is `wallStr count` where `count` is the number of
`'1'` characters across the 8 lines immediately following the `TIL` line, and
that line reads `WAL true` iff `count > 20` (so exactly 21 set bits give
`WAL true` and exactly 20 give `WAL false`). -/
theorem c3_wall_threshold (til : String) (rest done r : List String)
    (h : setTileWall til rest = some (done, r)) :
    wallStr (((rest.take 8).map countOnes).sum) ∈ done
    ∧ (20 < ((rest.take 8).map countOnes).sum ↔
        wallStr (((rest.take 8).map countOnes).sum) = "WAL true\n")
    ∧ (¬ 20 < ((rest.take 8).map countOnes).sum ↔
        wallStr (((rest.take 8).map countOnes).sum) = "WAL false\n") := by
  refine ⟨?_, ?_, ?_⟩
  · rw [setTileWall] at h
    by_cases h8 : rest.length < 8
    · rw [if_pos h8] at h
      exact absurd h (by simp)
    · rw [if_neg h8] at h
      cases hf : findWal (wallStr (((rest.take 8).map countOnes).sum)) (rest.drop 8) with
      | none =>
        rw [hf] at h
        simp at h
      | some cr =>
        obtain ⟨c, r'⟩ := cr
        rw [hf] at h
        simp only [Option.some.injEq, Prod.mk.injEq] at h
        rw [← h.1]
        exact List.mem_cons_of_mem til (List.mem_append_right _ (findWal_mem _ _ _ _ hf))
  · by_cases hc : 20 < ((rest.take 8).map countOnes).sum
    · rw [wallStr, if_pos hc]
      exact iff_of_true hc rfl
    · rw [wallStr, if_neg hc]
      exact iff_of_false hc (by decide)
  · by_cases hc : 20 < ((rest.take 8).map countOnes).sum
    · rw [wallStr, if_pos hc]
      exact iff_of_false (not_not_intro hc) (by decide)
    · rw [wallStr, if_neg hc]
      exact iff_of_true hc rfl

/-- Witness for C3: a first-frame bitmap with exactly 21 set bits yields
`WAL true`, one with exactly 20 yields `WAL false`. -/
theorem c3_wall_threshold_witness :
    wallStr (((["11111111\n", "11111111\n", "11111000\n", "00000000\n",
        "00000000\n", "00000000\n", "00000000\n", "00000000\n", "\n"].take 8).map
          countOnes).sum) = "WAL true\n"
    ∧ wallStr (((["11111111\n", "11111111\n", "11110000\n", "00000000\n",
        "00000000\n", "00000000\n", "00000000\n", "00000000\n", "\n"].take 8).map
          countOnes).sum) = "WAL false\n" := by
  have h21 := c3_wall_threshold "TIL a\n"
    ["11111111\n", "11111111\n", "11111000\n", "00000000\n",
      "00000000\n", "00000000\n", "00000000\n", "00000000\n", "\n"]
    ("TIL a\n" :: (["11111111\n", "11111111\n", "11111000\n", "00000000\n",
      "00000000\n", "00000000\n", "00000000\n", "00000000\n"] ++ ["WAL true\n"]))
    ["\n"] (by decide)
  have h20 := c3_wall_threshold "TIL a\n"
    ["11111111\n", "11111111\n", "11110000\n", "00000000\n",
      "00000000\n", "00000000\n", "00000000\n", "00000000\n", "\n"]
    ("TIL a\n" :: (["11111111\n", "11111111\n", "11110000\n", "00000000\n",
      "00000000\n", "00000000\n", "00000000\n", "00000000\n"] ++ ["WAL false\n"]))
    ["\n"] (by decide)
  exact ⟨h21.2.1.mp (by decide), h20.2.2.mp (by decide)⟩

theorem findWal_none (w : String) :
    ∀ ls : List String, (∀ m ∈ ls, startswith m "WAL" = false ∧ m ≠ "\n") →
      findWal w ls = none := by
  intro ls
  induction ls with
  | nil =>
    intro _
    rw [findWal]
  | cons l rest ih =>
    intro hall
    have h1 := hall l (List.mem_cons_self l rest)
    rw [findWal, if_neg (by simp [h1.1]), if_neg h1.2]
    rw [ih (fun m hm => hall m (List.mem_cons_of_mem l hm))]

/-- C4: the annotator fails (an exception aborts the scan) whenever a `TIL`
block has fewer than 8 following lines, or no line starting with `WAL` and no
blank line occurs between the end of its bitmap and the end of the file; and
in every failing run the target file's contents are left unchanged, because
the file is only rewritten after the whole scan succeeds.  (The spec's
`MalformedRecordError` is the abstract name for this failure; the Python code
surfaces it as an uncaught `IndexError`.) -/
theorem c4_malformed_abort (pre : List String) (til : String) (rest : List String)
    (hpre : ∀ p ∈ pre, startswith p "TIL" = false)
    (htil : startswith til "TIL" = true)
    (hbad : rest.length < 8
        ∨ ∀ m ∈ rest.drop 8, startswith m "WAL" = false ∧ m ≠ "\n") :
    walk (pre ++ til :: rest) = none
    ∧ addWallsRun (pre ++ til :: rest) = pre ++ til :: rest := by
  have hst : setTileWall til rest = none := by
    rw [setTileWall]
    by_cases h8 : rest.length < 8
    · rw [if_pos h8]
    · rw [if_neg h8]
      rcases hbad with h | hw
      · omega
      · rw [findWal_none _ _ hw]
  have hbase : walk (til :: rest) = none := walk_cons_til_none til rest htil hst
  have hwalk : walk (pre ++ til :: rest) = none := by
    induction pre with
    | nil => simpa using hbase
    | cons p ps ih =>
      rw [List.cons_append, walk_cons_other p _ (hpre p (List.mem_cons_self p ps))]
      rw [ih (fun q hq => hpre q (List.mem_cons_of_mem p hq))]
      rfl
  refine ⟨hwalk, ?_⟩
  rw [addWallsRun, hwalk]

/-- Witness for C4: a file whose `TIL` line is the last line (no 8 bitmap
rows follow) aborts the scan and is left unchanged. -/
theorem c4_malformed_abort_witness :
    walk (["x\n"] ++ "TIL 0\n" :: []) = none
    ∧ addWallsRun (["x\n"] ++ "TIL 0\n" :: []) = ["x\n"] ++ "TIL 0\n" :: [] := by
  exact c4_malformed_abort ["x\n"] "TIL 0\n" []
    (by decide) (by decide) (Or.inl (by decide))

theorem wallStr_startswith (c : Nat) : startswith (wallStr c) "WAL" = true := by
  rw [wallStr]
  by_cases hc : c > 20
  · rw [if_pos hc]
    decide
  · rw [if_neg hc]
    decide

theorem findWal_decomp (w : String) :
    ∀ (ls c r : List String), findWal w ls = some (c, r) →
      ∃ mids, (∀ m ∈ mids, startswith m "WAL" = false ∧ m ≠ "\n")
        ∧ c = mids ++ [w] := by
  intro ls
  induction ls with
  | nil =>
    intro c r h
    rw [findWal] at h
    exact absurd h (by simp)
  | cons l rest ih =>
    intro c r h
    rw [findWal] at h
    by_cases h1 : startswith l "WAL"
    · rw [if_pos h1] at h
      simp only [Option.some.injEq, Prod.mk.injEq] at h
      exact ⟨[], by simp, h.1.symm⟩
    · rw [if_neg h1] at h
      by_cases h2 : l = "\n"
      · rw [if_pos h2] at h
        simp only [Option.some.injEq, Prod.mk.injEq] at h
        exact ⟨[], by simp, h.1.symm⟩
      · rw [if_neg h2] at h
        cases hf : findWal w rest with
        | none =>
          rw [hf] at h
          simp at h
        | some cr =>
          obtain ⟨c', r'⟩ := cr
          rw [hf] at h
          simp only [Option.some.injEq, Prod.mk.injEq] at h
          obtain ⟨mids, hmids, hc'⟩ := ih c' r' hf
          refine ⟨l :: mids, ?_, ?_⟩
          · intro m hm
            rcases List.mem_cons.mp hm with rfl | hm'
            · exact ⟨Bool.eq_false_iff.mpr h1, h2⟩
            · exact hmids m hm'
          · rw [← h.1, hc']
            rfl
  
theorem findWal_rescan (w wp : String) (hw : startswith w "WAL" = true) :
    ∀ (mids tail : List String),
      (∀ m ∈ mids, startswith m "WAL" = false ∧ m ≠ "\n") →
      findWal wp (mids ++ w :: tail) = some (mids ++ [wp], tail) := by
  intro mids
  induction mids with
  | nil =>
    intro tail _
    rw [List.nil_append, findWal, if_pos hw]
    rfl
  | cons m mids' ih =>
    intro tail hall
    have h1 := hall m (List.mem_cons_self m mids')
    rw [List.cons_append, findWal, if_neg (by simp [h1.1]), if_neg h1.2]
    rw [ih tail (fun q hq => hall q (List.mem_cons_of_mem m hq))]
    rfl

theorem walk_idem_aux :
    ∀ (n : Nat) (ls out : List String), ls.length ≤ n → walk ls = some out →
      walk out = some out := by
  intro n
  induction n with
  | zero =>
    intro ls out hlen h
    have hnil : ls = [] := List.eq_nil_of_length_eq_zero (by omega)
    subst hnil
    rw [walk_nil] at h
    injection h with h
    subst h
    exact walk_nil
  | succ n ih =>
    intro ls out hlen h
    cases ls with
    | nil =>
      rw [walk_nil] at h
      injection h with h
      subst h
      exact walk_nil
    | cons l rest =>
      simp only [List.length_cons] at hlen
      by_cases hl : startswith l "TIL" = true
      · cases hst : setTileWall l rest with
        | none =>
          rw [walk_cons_til_none l rest hl hst] at h
          exact absurd h (by simp)
        | some dr =>
          obtain ⟨done, r⟩ := dr
          rw [walk_cons_til_some l rest done r hl hst] at h
          cases hr : walk r with
          | none =>
            rw [hr] at h
            exact absurd h (by simp)
          | some out' =>
            rw [hr] at h
            simp only [Option.map_some', Option.some.injEq] at h
            subst h
            have hrle : r.length ≤ rest.length := setTileWall_rest_le l rest done r hst
            have hout' : walk out' = some out' := ih r out' (by omega) hr
            rw [setTileWall] at hst
            by_cases h8 : rest.length < 8
            · rw [if_pos h8] at hst
              exact absurd hst (by simp)
            · rw [if_neg h8] at hst
              cases hf : findWal (wallStr (((rest.take 8).map countOnes).sum))
                  (rest.drop 8) with
              | none =>
                rw [hf] at hst
                exact absurd hst (by simp)
              | some cr =>
                obtain ⟨c, r'⟩ := cr
                rw [hf] at hst
                simp only [Option.some.injEq, Prod.mk.injEq] at hst
                obtain ⟨hdone, hr'⟩ := hst
                subst hdone
                obtain ⟨mids, hmids, hc⟩ :=
                  findWal_decomp (wallStr (((rest.take 8).map countOnes).sum))
                    (rest.drop 8) c r' hf
                subst hc
                have htake : (rest.take 8).length = 8 := by
                  rw [List.length_take]
                  omega
                rw [List.cons_append]
                have ht8 : ((rest.take 8
                      ++ (mids ++ [wallStr (((rest.take 8).map countOnes).sum)]))
                      ++ out').take 8 = rest.take 8 := by
                  rw [List.append_assoc]
                  exact List.take_left' htake
                have hd8 : ((rest.take 8
                      ++ (mids ++ [wallStr (((rest.take 8).map countOnes).sum)]))
                      ++ out').drop 8
                    = mids ++ wallStr (((rest.take 8).map countOnes).sum) :: out' := by
                  rw [List.append_assoc]
                  rw [List.drop_left' htake]
                  rw [List.append_assoc]
                  rfl
                have hst2 : setTileWall l
                    ((rest.take 8
                      ++ (mids ++ [wallStr (((rest.take 8).map countOnes).sum)]))
                      ++ out')
                    = some (l :: (rest.take 8
                        ++ (mids ++ [wallStr (((rest.take 8).map countOnes).sum)])),
                        out') := by
                  rw [setTileWall]
                  rw [if_neg (by
                    simp only [List.length_append, List.length_cons, htake]
                    omega)]
                  rw [ht8, hd8]
                  rw [findWal_rescan (wallStr (((rest.take 8).map countOnes).sum))
                    (wallStr (((rest.take 8).map countOnes).sum))
                    (wallStr_startswith _) mids out' hmids]
                rw [walk_cons_til_some l _ _ _ hl hst2, hout']
                rfl
      · have hl' : startswith l "TIL" = false := Bool.eq_false_iff.mpr hl
        rw [walk_cons_other l rest hl'] at h
        cases hr : walk rest with
        | none =>
          rw [hr] at h
          exact absurd h (by simp)
        | some out' =>
          rw [hr] at h
          simp only [Option.map_some', Option.some.injEq] at h
          subst h
          have hout' : walk out' = some out' := ih rest out' (by omega) hr
          rw [walk_cons_other l out' hl', hout']
          rfl

/-- C10: the wall annotator is idempotent on well-formed input — if one pass
over a file's lines succeeds, a second pass over the resulting lines succeeds
and returns them unchanged (every `TIL` block now has a `WAL` line that the
rescan finds first and replaces with the same value, inserting nothing), so
rerunning the annotator leaves the file byte-identical. -/
theorem c10_annotator_idempotent (ls out : List String) (h : walk ls = some out) :
    walk out = some out ∧ addWallsRun out = out := by
  have hw : walk out = some out := walk_idem_aux ls.length ls out le_rfl h
  refine ⟨hw, ?_⟩
  rw [addWallsRun, hw]

/-- Witness for C10: one pass over a 10-line file (a `TIL` block followed by
a blank line) inserts `WAL false`; the second pass over the 11-line result
succeeds and leaves it unchanged. -/
theorem c10_annotator_idempotent_witness :
    walk ["TIL a\n", "00000000\n", "00000000\n", "00000000\n", "00000000\n",
        "00000000\n", "00000000\n", "00000000\n", "00000000\n", "WAL false\n", "\n"]
      = some ["TIL a\n", "00000000\n", "00000000\n", "00000000\n", "00000000\n",
        "00000000\n", "00000000\n", "00000000\n", "00000000\n", "WAL false\n", "\n"]
    ∧ addWallsRun ["TIL a\n", "00000000\n", "00000000\n", "00000000\n", "00000000\n",
        "00000000\n", "00000000\n", "00000000\n", "00000000\n", "WAL false\n", "\n"]
      = ["TIL a\n", "00000000\n", "00000000\n", "00000000\n", "00000000\n",
        "00000000\n", "00000000\n", "00000000\n", "00000000\n", "WAL false\n", "\n"] := by
  have h1 : setTileWall "TIL a\n"
      ["00000000\n", "00000000\n", "00000000\n", "00000000\n",
        "00000000\n", "00000000\n", "00000000\n", "00000000\n", "\n"]
      = some ("TIL a\n" :: (["00000000\n", "00000000\n", "00000000\n", "00000000\n",
          "00000000\n", "00000000\n", "00000000\n", "00000000\n"] ++ ["WAL false\n"]),
          ["\n"]) := by decide
  have h2 : walk ["\n"] = some ["\n"] := by
    rw [walk_cons_other "\n" [] (by decide), walk_nil]
    rfl
  have h : walk ("TIL a\n"
      :: ["00000000\n", "00000000\n", "00000000\n", "00000000\n",
        "00000000\n", "00000000\n", "00000000\n", "00000000\n", "\n"])
      = some (("TIL a\n" :: (["00000000\n", "00000000\n", "00000000\n", "00000000\n",
          "00000000\n", "00000000\n", "00000000\n", "00000000\n"] ++ ["WAL false\n"]))
          ++ ["\n"]) := by
    rw [walk_cons_til_some "TIL a\n" _ _ _ (by decide) h1, h2]
    rfl
  exact c10_annotator_idempotent _ _ h
